import Mathlib

/-!
Shallow embedding of the repository's preprocessing core
(src/utils/preprocessor.py, class Preprocessor) and proofs about it.

Modelling conventions:
* Python strings are lists of characters (List Char); node names are such lists.
* Python dicts are insertion-ordered association lists (CPython 3.7+ keeps
  insertion order), so the parent map is a List (Name × List Name) where the
  outer list order is dict insertion order.
* A Python set is modelled by its membership: we store the elements in
  first-add order as a duplicate-free list, which fixes the set's CONTENT.
  The iteration order of a Python set (what list(s) yields) is NOT the
  insertion order and is not specified by the language, so every place the
  code evaluates list(segmented_parent_child[node]) is parameterised by an
  enumeration function whose only guarantee is being a permutation of the
  stored elements.
* Fallible Python operations (dict lookup, list.index, item assignment,
  subscripting a list with a string) return Except PyErr carrying what the
  CPython exception actually carries.
* torch.utils.data.random_split is driven by a random permutation of the
  index range; we pass that permutation explicitly.
* round() on a float is modelled by exact rational arithmetic with
  round-half-to-even, which agrees with the float computation
  round(n * 0.8), round(m * 0.9) for every dataset size that fits in an
  IEEE double's integer range (the float product is within 2^-52·n of the
  exact rational, never crossing a rounding boundary).
-/

namespace MediumPrep

/-- Python character names in this file are ASCII; str.lower on ASCII maps
A..Z to a..z and leaves everything else unchanged. -/
def lowerChar (c : Char) : Char :=
  if 'A' ≤ c ∧ c ≤ 'Z' then Char.ofNat (c.toNat + 32) else c

/-- A node name, i.e. a Python string, as a list of characters. -/
abbrev Name := List Char

/-- The delimiter " > " used by both the hierarchy file and sample paths. -/
def sepTok : List Char := [' ', '>', ' ']

/-- Recursive worker for Python s.split(" > "): scan left to right; at
each occurrence of the three-character separator emit the accumulated
chunk and continue after it, otherwise shift one character. -/
def splitOnSepGo (acc : List Char) : List Char → List (List Char)
  | ' ' :: '>' :: ' ' :: rest => acc.reverse :: splitOnSepGo [] rest
  | c :: rest => splitOnSepGo (c :: acc) rest
  | [] => [acc.reverse]

/-- Python s.split(" > "): leftmost non-overlapping occurrences. -/
def splitOnSep (s : List Char) : List (List Char) := splitOnSepGo [] s

/-- The node sequence the parser extracts from one raw line of the hierarchy
file: nodes = path[:-1].lower().split(" > ") (preprocessor.py line 86).
Note the unconditional [:-1] before lowering and splitting. -/
def lineNodes (l : List Char) : List Name :=
  splitOnSep (l.dropLast.map lowerChar)

/-- The node sequence extracted from a sample's path column:
nodes = path.lower().split(" > ") (preprocessor.py line 120) - no [:-1]. -/
def pathNodes (p : List Char) : List Name :=
  splitOnSep (p.map lowerChar)

/-- The parent map: a CPython dict (insertion ordered) from parent name to
its set of children; the child list records set membership in first-add
order and is duplicate-free. -/
abbrev Segments := List (Name × List Name)

/-- Python set.add: a no-op when the element is present, otherwise the
element joins the set. -/
def setAdd (s : List Name) (x : Name) : List Name :=
  if x ∈ s then s else s ++ [x]

/-- One execution of the loop body at lines 91-95: add node as a child of
parent, creating the parent's entry (at the end of the dict, as CPython
does for a new key) when the bare except catches the KeyError. -/
def addChild : Segments → Name → Name → Segments
  | [], p, c => [(p, [c])]
  | (q, s) :: d, p, c =>
    if q = p then (q, setAdd s c) :: d else (q, s) :: addChild d p c

/-- The inner loop of generate_hierarchy_segment over one line's nodes:
for every adjacent pair (nodes[depth-1], nodes[depth]) with depth > 0,
record the second as a child of the first. -/
def addPairs : Segments → List Name → Segments
  | d, a :: b :: rest => addPairs (addChild d a b) (b :: rest)
  | d, _ => d

/-- Embedding of generate_hierarchy_segment (lines 81-97): fold the per-line
pair recording over the file's raw lines (each line as Python file
iteration yields it, i.e. with its trailing newline except possibly the
last line of the file). -/
def generateHierarchySegment (file : List (List Char)) : Segments :=
  file.foldl (fun d l => addPairs d (lineNodes l)) []

/-- Dict lookup segmented_parent_child[p] as an Option. -/
def findSeg : Segments → Name → Option (List Name)
  | [], _ => none
  | (q, s) :: d, p => if q = p then some s else findSeg d p

/-- The children recorded for a parent (empty when the parent is absent);
used only to state membership facts. -/
def childrenOf (d : Segments) (p : Name) : List Name :=
  (findSeg d p).getD []

/-- Decides whether the node list contains p immediately followed by c. -/
def hasAdjPair (p c : Name) : List Name → Bool
  | a :: b :: rest => (decide (a = p) && decide (b = c)) || hasAdjPair p c (b :: rest)
  | _ => false

/-- The CPython exceptions this code can raise, carrying exactly the data
their messages carry: KeyError holds the missing key, ValueError (from
list.index) holds the element that was not found, IndexError (from list
item assignment out of range) and TypeError (from subscripting a list with
a string key) carry nothing that identifies a sample. -/
inductive PyErr where
  | keyError (key : Name)
  | valueError (val : Name)
  | indexError
  | typeError
deriving DecidableEq, Repr

/-- Python list item assignment l[i] = v for a non-negative index:
IndexError when i is out of range. -/
def pySetItem (l : List Nat) (i : Nat) (v : Nat) : Except PyErr (List Nat) :=
  if i < l.length then .ok (l.set i v) else .error .indexError

/-- Python list.index for a present element: the first position of x. -/
def pyListIndex (x : Name) : List Name → Nat
  | [] => 0
  | y :: l => if y = x then 0 else pyListIndex x l + 1

/-- Lines 122-128 for one (parent, child) pair of a sample's path:
child_of_parent = list(segmented_parent_child[node]) (KeyError when the
parent was never recorded), child_idx = child_of_parent.index(child)
(ValueError when the child is not in the list), then
hierarchical_binary = [0] * len(child_of_parent); hierarchical_binary[child_idx] = 1.
The runtime enumeration list(...) of the Python set is the parameter
listOf; theorems restrict it to permutations of the recorded children. -/
def encodePair (d : Segments) (listOf : Name → List Name) (p c : Name) :
    Except PyErr (List Nat) :=
  match findSeg d p with
  | none => .error (.keyError p)
  | some _ =>
    let l := listOf p
    if c ∈ l then
      pySetItem (List.replicate l.length 0) (pyListIndex c l) 1
    else
      .error (.valueError c)

/-- One per-parent bucket once initialised: the dict
with keys input_ids and hierarchical_target of lines 132-136. Tokenized
inputs are opaque and stand for token id lists. -/
abbrev Bucket := List Nat × List (List Nat)

/-- The list segmented_by_hierarchy: one slot per parent, none while the
slot still holds the initial empty-list placeholder from line 107. -/
abbrev Buckets := List (Option Bucket)

/-- parents_idx[node]: position of the parent in dict insertion order
(line 106). Reached only after findSeg succeeded, so the name is present. -/
def parentPos (d : Segments) (p : Name) : Nat :=
  d.findIdx (fun e => decide (e.1 = p))

/-- Lines 132-136: lazily replace the placeholder by the two-list dict,
then append the token sequence and the hierarchical one-hot. -/
def appendBucket (bs : Buckets) (i : Nat) (tok : Nat) (v : List Nat) : Buckets :=
  let cur := (bs.getD i none).getD ([], [])
  bs.set i (some (cur.1 ++ [tok], cur.2 ++ [v]))

/-- The loop at lines 122-136 over one sample's path: every adjacent
(parent, child) pair contributes one hierarchical example to that parent's
bucket; the first failing pair aborts the run. -/
def processSample (d : Segments) (listOf : Name → List Name) (bs : Buckets)
    (tok : Nat) : List Name → Except PyErr Buckets
  | a :: b :: rest => do
    let v ← encodePair d listOf a b
    processSample d listOf (appendBucket bs (parentPos d a) tok v) tok (b :: rest)
  | _ => .ok bs

/-- The buckets before any sample is processed: line 107,
segmented_by_hierarchy = [[] for i in range(len(parents_idx))]. -/
def initBuckets (d : Segments) : Buckets :=
  List.replicate d.length none

/-- The per-sample loop of lines 112-136 restricted to the hierarchical
part: each sample is (token id, path node list). -/
def processAll (d : Segments) (listOf : Name → List Name)
    (samples : List (Nat × List Name)) : Except PyErr Buckets :=
  samples.foldlM (fun bs s => processSample d listOf bs s.1 s.2) (initBuckets d)

/-- Lines 143-148: for data in segmented_by_hierarchy:
hierarchical_input_ids = data['input_ids'] - when data is still the empty
list placeholder, subscripting a list with a string raises TypeError.
The split applied to an initialised bucket is abstracted as splitF. -/
def assembleHierarchical {α : Type} (splitF : Bucket → α) (bs : Buckets) :
    Except PyErr (List α) :=
  bs.mapM (fun b =>
    match b with
    | none => .error .typeError
    | some bk => .ok (splitF bk))

/-- The hierarchical portion of preprocessing_data: parse the hierarchy
file, accumulate every sample's per-parent examples, then assemble the
per-parent split list. -/
def hierPipeline {α : Type} (file : List (List Char))
    (listOf : Name → List Name) (samples : List (Nat × List Name))
    (splitF : Bucket → α) : Except PyErr (List α) :=
  match processAll (generateHierarchySegment file) listOf samples with
  | .error e => .error e
  | .ok bs => assembleHierarchical splitF bs

/-- An enumeration of each parent's child set that CPython could certainly
produce (the stored first-add order); used to run the pipeline on concrete
inputs. -/
def canonicalListing (d : Segments) : Name → List Name :=
  fun p => childrenOf d p

/-- Python round() on the exact rational value: round half to even. -/
def pyRound (q : ℚ) : ℤ :=
  if q - ⌊q⌋ < 1 / 2 then ⌊q⌋
  else if 1 / 2 < q - ⌊q⌋ then ⌊q⌋ + 1
  else if ⌊q⌋ % 2 = 0 then ⌊q⌋ else ⌊q⌋ + 1

/-- Round-half-to-even of the fraction num / den over ℕ; proved below to
agree with pyRound of the exact rational, and kernel-computable. -/
def roundHalfEvenDiv (num den : Nat) : Nat :=
  if 2 * (num % den) < den then num / den
  else if den < 2 * (num % den) then num / den + 1
  else if (num / den) % 2 = 0 then num / den else num / den + 1

/-- Line 180: train_valid_size = round(len(tensor_dataset) * 0.8),
as the exact half-even rounding of 8n/10. -/
def trainValidSize (n : Nat) : Nat :=
  roundHalfEvenDiv (8 * n) 10

/-- Line 185: train_size = round(len(train_valid_set) * 0.9),
as the exact half-even rounding of 9tv/10. -/
def trainSize (tv : Nat) : Nat :=
  roundHalfEvenDiv (9 * tv) 10

/-- Embedding of data_splitting (lines 174-190) at the index level.
random_split draws a random permutation of the index range and slices it,
so the two random draws enter as explicit permutations: perm1 of range n
for the outer 80/20 split, perm2 of range train_valid_size for the inner
90/10 split of the train_valid Subset; the nested Subset composes indices
through the first slice. Returns the original-collection index lists of
(train, valid, test). -/
def dataSplitting (n : Nat) (perm1 perm2 : List Nat) :
    List Nat × List Nat × List Nat :=
  let tv := trainValidSize n
  let trainValidIdx := perm1.take tv
  let testIdx := perm1.drop tv
  let tr := trainSize tv
  let trainIdx := (perm2.take tr).map (fun i => trainValidIdx.getD i 0)
  let validIdx := (perm2.drop tr).map (fun i => trainValidIdx.getD i 0)
  (trainIdx, validIdx, testIdx)

/-- Embedding of preprocessor (lines 55-67): ex is os.path.exists on the
abstract file system, load is torch.load, and build stands for the whole
preprocessing_data run on the current input table and hierarchy file.
The Bool records whether the build branch ran. -/
def preprocessorRun {α : Type} (ex : String → Bool) (load : String → α)
    (build : Unit → α × α × α) : (α × α × α) × Bool :=
  if ex "datasets/train_set.pt" && ex "datasets/valid_set.pt" &&
      ex "datasets/test_set.pt" then
    ((load "datasets/train_set.pt", load "datasets/valid_set.pt",
      load "datasets/test_set.pt"), false)
  else
    (build (), true)

/-- The first exception raised while walking a path's adjacent pairs at
lines 122-125, if any: KeyError for an unrecorded parent, ValueError for a
child missing from the parent's enumerated children; none when every pair
succeeds. -/
def firstFailure (d : Segments) (listOf : Name → List Name) : List Name → Option PyErr
  | a :: b :: rest =>
    match findSeg d a with
    | none => some (.keyError a)
    | some _ =>
      if b ∈ listOf a then firstFailure d listOf (b :: rest)
      else some (.valueError b)
  | _ => none

/-- Join a list of node names with a separator, to build raw hierarchy
lines from their intended node names. -/
def joinSep (s : List Char) : List (List Char) → List Char
  | [] => []
  | [a] => a
  | a :: b :: l => a ++ s ++ joinSep s (b :: l)

/-- Hierarchy file with lines a > b and a > c: parent a has the child set
containing b and c, first encountered in the order b then c. -/
def fileBC : List (List Char) :=
  [['a', ' ', '>', ' ', 'b', '\n'], ['a', ' ', '>', ' ', 'c', '\n']]

/-- Hierarchy file with lines x > z and w > z, for mismatch scenarios. -/
def fileXW : List (List Char) :=
  [['x', ' ', '>', ' ', 'z', '\n'], ['w', ' ', '>', ' ', 'z', '\n']]

/-- Parsed segments of fileXW. -/
def segXW : Segments := generateHierarchySegment fileXW

/-- Hierarchy file with lines a > b and c > d: two parents, of which c is
touched by no sample in the untouched-parent scenario. -/
def fileC9 : List (List Char) :=
  [['a', ' ', '>', ' ', 'b', '\n'], ['c', ' ', '>', ' ', 'd', '\n']]

/-- One input-table row after dropna, with the four positional columns the
code touches: data[0] is the text (opaque here), data[1] an unused column,
the leaf label column is read by name, data[3] is the path string; the
computed label_idx column is appended by line 103 and becomes data[4]. -/
structure Row where
  text : Nat
  extra : Nat
  leaf : Name
  path : List Char
deriving DecidableEq, Repr

/-- Line 102: labels_idx = dataset['leaf'].unique().tolist() - the distinct
leaf labels in first-seen order. -/
def labelsIdx (rows : List Row) : List Name :=
  rows.foldl (fun acc r => setAdd acc r.leaf) []

/-- Lines 103 and 114-115 for one row: label_idx = labels_idx.index(leaf),
flat_binary = [0] * num_classes; flat_binary[int(data[4])] = 1. -/
def flatTarget (numClasses : Nat) (labels : List Name) (r : Row) :
    Except PyErr (List Nat) :=
  pySetItem (List.replicate numClasses 0) (pyListIndex r.leaf labels) 1

/-! Supporting lemmas. -/

lemma roundHalfEvenDiv_eq_pyRound (num den : Nat) (hden : 0 < den) :
    (roundHalfEvenDiv num den : ℤ) = pyRound ((num : ℚ) / (den : ℚ)) := by
  have hdQ : (0 : ℚ) < (den : ℚ) := by exact_mod_cast hden
  have hflr : ⌊((num : ℚ) / (den : ℚ))⌋ = ((num / den : Nat) : ℤ) := by
    have h1 : ⌊(((num : ℤ) : ℚ) / ((den : Nat) : ℚ))⌋ = (num : ℤ) / ((den : Nat) : ℤ) :=
      Rat.floor_intCast_div_natCast (num : ℤ) den
    have h2 : ((num : ℤ) : ℚ) = (num : ℚ) := by push_cast; rfl
    rw [h2] at h1
    rw [h1]
    omega
  have hsum : (den : ℚ) * ((num / den : Nat) : ℚ) + ((num % den : Nat) : ℚ) = (num : ℚ) := by
    exact_mod_cast congrArg (fun k : Nat => (k : ℚ)) (Nat.div_add_mod num den)
  have hr : (num : ℚ) / (den : ℚ) - ((num / den : Nat) : ℚ)
      = ((num % den : Nat) : ℚ) / (den : ℚ) := by
    rw [eq_div_iff (ne_of_gt hdQ), sub_mul, div_mul_cancel₀ _ (ne_of_gt hdQ)]
    linarith [hsum]
  have hlt : ((num % den : Nat) : ℚ) / (den : ℚ) < 1 / 2 ↔ 2 * (num % den) < den := by
    rw [div_lt_div_iff hdQ (by norm_num : (0 : ℚ) < 2)]
    rw [show ((num % den : Nat) : ℚ) * 2 = ((2 * (num % den) : Nat) : ℚ) by push_cast; ring]
    rw [show (1 : ℚ) * ((den : Nat) : ℚ) = ((den : Nat) : ℚ) by ring]
    exact Nat.cast_lt
  have hgt : 1 / 2 < ((num % den : Nat) : ℚ) / (den : ℚ) ↔ den < 2 * (num % den) := by
    rw [div_lt_div_iff (by norm_num : (0 : ℚ) < 2) hdQ]
    rw [show ((num % den : Nat) : ℚ) * 2 = ((2 * (num % den) : Nat) : ℚ) by push_cast; ring]
    rw [show (1 : ℚ) * ((den : Nat) : ℚ) = ((den : Nat) : ℚ) by ring]
    exact Nat.cast_lt
  have hmod : (((num / den : Nat) : ℤ) % 2 = 0) ↔ (num / den) % 2 = 0 := by omega
  unfold pyRound roundHalfEvenDiv
  rw [hflr]
  rw [show (((num / den : Nat) : ℤ) : ℚ) = ((num / den : Nat) : ℚ) by push_cast; rfl]
  rw [hr]
  rcases Nat.lt_trichotomy (2 * (num % den)) den with hc | hc | hc
  · rw [if_pos (hlt.mpr hc), if_pos hc]
  · have hn1 : ¬ ((num % den : Nat) : ℚ) / (den : ℚ) < 1 / 2 := by rw [hlt]; omega
    have hn2 : ¬ 1 / 2 < ((num % den : Nat) : ℚ) / (den : ℚ) := by rw [hgt]; omega
    rw [if_neg hn1, if_neg hn2, if_neg (show ¬ 2 * (num % den) < den by omega),
      if_neg (show ¬ den < 2 * (num % den) by omega)]
    by_cases he : (num / den) % 2 = 0
    · rw [if_pos (hmod.mpr he), if_pos he]
    · rw [if_neg (fun h => he (hmod.mp h)), if_neg he]
      push_cast
      ring
  · have hn1 : ¬ ((num % den : Nat) : ℚ) / (den : ℚ) < 1 / 2 := by rw [hlt]; omega
    rw [if_neg hn1, if_pos (hgt.mpr hc),
      if_neg (show ¬ 2 * (num % den) < den by omega), if_pos hc]
    push_cast
    ring

lemma trainValidSize_le (n : Nat) : trainValidSize n ≤ n := by
  have h1 := Nat.div_add_mod (8 * n) 10
  have h2 : (8 * n) % 10 < 10 := Nat.mod_lt _ (by omega)
  unfold trainValidSize roundHalfEvenDiv
  split_ifs <;> omega

lemma trainSize_le (tv : Nat) : trainSize tv ≤ tv := by
  have h1 := Nat.div_add_mod (9 * tv) 10
  have h2 : (9 * tv) % 10 < 10 := Nat.mod_lt _ (by omega)
  unfold trainSize roundHalfEvenDiv
  split_ifs <;> omega

lemma pyRound_mul_eight_tenths (n : Nat) :
    (pyRound ((n : ℚ) * (8 / 10 : ℚ))).toNat = trainValidSize n := by
  have h : ((8 * n : Nat) : ℚ) / ((10 : Nat) : ℚ) = (n : ℚ) * (8 / 10 : ℚ) := by
    push_cast
    ring
  rw [← h, ← roundHalfEvenDiv_eq_pyRound (8 * n) 10 (by omega)]
  exact Int.toNat_natCast _

lemma pyRound_mul_nine_tenths (tv : Nat) :
    (pyRound ((tv : ℚ) * (9 / 10 : ℚ))).toNat = trainSize tv := by
  have h : ((9 * tv : Nat) : ℚ) / ((10 : Nat) : ℚ) = (tv : ℚ) * (9 / 10 : ℚ) := by
    push_cast
    ring
  rw [← h, ← roundHalfEvenDiv_eq_pyRound (9 * tv) 10 (by omega)]
  exact Int.toNat_natCast _

lemma map_getD_range {α : Type} (xs : List α) (d : α) :
    (List.range xs.length).map (fun i => xs.getD i d) = xs := by
  apply List.ext_getElem
  · simp
  · intro n h1 h2
    simp only [List.getElem_map, List.getElem_range]
    exact List.getD_eq_getElem xs d h2

lemma dataSplitting_lengths (n : Nat) (perm1 perm2 : List Nat)
    (h1 : perm1.Perm (List.range n))
    (h2 : perm2.Perm (List.range (trainValidSize n))) :
    (dataSplitting n perm1 perm2).1.length = trainSize (trainValidSize n) ∧
    (dataSplitting n perm1 perm2).2.1.length
      = trainValidSize n - trainSize (trainValidSize n) ∧
    (dataSplitting n perm1 perm2).2.2.length = n - trainValidSize n := by
  have hl1 : perm1.length = n := by rw [h1.length_eq, List.length_range]
  have hl2 : perm2.length = trainValidSize n := by rw [h2.length_eq, List.length_range]
  have htv := trainValidSize_le n
  have htr := trainSize_le (trainValidSize n)
  simp only [dataSplitting, List.length_map, List.length_take, List.length_drop, hl1, hl2,
    min_eq_left htv, min_eq_left htr]
  exact ⟨trivial, trivial, trivial⟩

lemma perm_take_drop_map (l p : List Nat) (h : p.Perm (List.range l.length))
    (k d : Nat) :
    ((p.take k).map (fun i => l.getD i d) ++ (p.drop k).map (fun i => l.getD i d)).Perm l := by
  rw [← List.map_append, List.take_append_drop]
  have hm := h.map (fun i => l.getD i d)
  rw [map_getD_range l d] at hm
  exact hm

lemma dataSplitting_perm (n : Nat) (perm1 perm2 : List Nat)
    (h1 : perm1.Perm (List.range n))
    (h2 : perm2.Perm (List.range (trainValidSize n))) :
    ((dataSplitting n perm1 perm2).1 ++ (dataSplitting n perm1 perm2).2.1
      ++ (dataSplitting n perm1 perm2).2.2).Perm (List.range n) := by
  have hl1 : perm1.length = n := by rw [h1.length_eq, List.length_range]
  have htv := trainValidSize_le n
  have htvlen : (perm1.take (trainValidSize n)).length = trainValidSize n := by
    rw [List.length_take, hl1, min_eq_left htv]
  have h2' : perm2.Perm (List.range ((perm1.take (trainValidSize n)).length)) := by
    rw [htvlen]
    exact h2
  have inner := perm_take_drop_map (perm1.take (trainValidSize n)) perm2 h2'
    (trainSize (trainValidSize n)) 0
  have step2 := inner.append (List.Perm.refl (perm1.drop (trainValidSize n)))
  rw [List.take_append_drop] at step2
  simp only [dataSplitting]
  exact step2.trans h1

lemma pyListIndex_lt_length (x : Name) (l : List Name) (h : x ∈ l) :
    pyListIndex x l < l.length := by
  induction l with
  | nil => cases h
  | cons y l ih =>
    unfold pyListIndex
    split_ifs with hy
    · simp
    · have hx : x ∈ l := by
        rcases List.mem_cons.mp h with h1 | h1
        · exact absurd h1.symm hy
        · exact h1
      have := ih hx
      simp only [List.length_cons]
      omega

lemma oneHot_length (n i : Nat) : ((List.replicate n 0).set i 1).length = n := by
  rw [List.length_set, List.length_replicate]

lemma oneHot_getD (n i j : Nat) (_hi : i < n) (hj : j < n) :
    ((List.replicate n 0).set i 1).getD j 0 = if j = i then 1 else 0 := by
  have hjl : j < ((List.replicate n 0).set i 1).length := by
    rw [oneHot_length]
    exact hj
  rw [List.getD_eq_getElem _ _ hjl, List.getElem_set]
  by_cases h : i = j
  · simp [h]
  · rw [if_neg h, if_neg (fun hh => h hh.symm)]
    simp

lemma count_one_set_replicate (n i : Nat) (hi : i < n) :
    ((List.replicate n 0).set i 1).count 1 = 1 := by
  induction n generalizing i with
  | zero => omega
  | succ n ih =>
    rw [List.replicate_succ]
    cases i with
    | zero =>
      rw [List.set_cons_zero]
      simp [List.count_cons, List.count_replicate]
    | succ i =>
      rw [List.set_cons_succ, List.count_cons]
      simp [ih i (by omega)]

lemma mem_foldl_setAdd_of_mem (rows : List Row) (acc : List Name) (x : Name)
    (h : x ∈ acc) : x ∈ rows.foldl (fun a r => setAdd a r.leaf) acc := by
  induction rows generalizing acc with
  | nil => exact h
  | cons r rows ih =>
    rw [List.foldl_cons]
    apply ih
    show x ∈ setAdd acc r.leaf
    unfold setAdd
    split_ifs with hmem
    · exact h
    · exact List.mem_append_left _ h

lemma leaf_mem_foldl_setAdd (rows : List Row) (r : Row) (h : r ∈ rows) :
    ∀ acc, r.leaf ∈ rows.foldl (fun a x => setAdd a x.leaf) acc := by
  induction rows with
  | nil => cases h
  | cons a rows ih =>
    intro acc
    rw [List.foldl_cons]
    rcases List.mem_cons.mp h with heq | hmem
    · subst heq
      apply mem_foldl_setAdd_of_mem
      show r.leaf ∈ setAdd acc r.leaf
      unfold setAdd
      split_ifs with hm
      · exact hm
      · simp
    · exact ih hmem _

lemma leaf_mem_labelsIdx (rows : List Row) (r : Row) (h : r ∈ rows) :
    r.leaf ∈ labelsIdx rows :=
  leaf_mem_foldl_setAdd rows r h []

lemma mem_setAdd {s : List Name} {x y : Name} : y ∈ setAdd s x ↔ y ∈ s ∨ y = x := by
  unfold setAdd
  split_ifs with h
  · constructor
    · exact Or.inl
    · rintro (hy | rfl)
      · exact hy
      · exact h
  · simp [List.mem_append]

lemma findSeg_addChild (d : Segments) (p c p' : Name) :
    findSeg (addChild d p c) p'
      = if p' = p then some (setAdd (childrenOf d p) c) else findSeg d p' := by
  induction d with
  | nil =>
    show findSeg [(p, [c])] p' = _
    unfold findSeg
    by_cases hp : p = p'
    · rw [if_pos hp, if_pos hp.symm]
      rfl
    · rw [if_neg hp, if_neg (fun h => hp h.symm)]
      rfl
  | cons e d ih =>
    obtain ⟨q, s⟩ := e
    by_cases hq : q = p
    · subst hq
      rw [show addChild ((q, s) :: d) q c = (q, setAdd s c) :: d by
        unfold addChild; rw [if_pos rfl]]
      unfold findSeg
      by_cases hp' : q = p'
      · rw [if_pos hp', if_pos hp'.symm]
        unfold childrenOf findSeg
        rw [if_pos rfl]
        rfl
      · rw [if_neg hp', if_neg (fun h => hp' h.symm), if_neg hp']
    · rw [show addChild ((q, s) :: d) p c = (q, s) :: addChild d p c by
        simp only [addChild]; rw [if_neg hq]]
      unfold findSeg
      by_cases hp' : q = p'
      · have hp'p : ¬ p' = p := fun h => hq (hp'.trans h)
        rw [if_pos hp', if_neg hp'p, if_pos hp']
      · rw [if_neg hp', if_neg hp', ih]
        by_cases hpp : p' = p
        · rw [if_pos hpp, if_pos hpp]
          simp only [childrenOf, findSeg]
          rw [if_neg hq]
        · rw [if_neg hpp, if_neg hpp]

lemma childrenOf_addChild (d : Segments) (p c p' c' : Name) :
    c' ∈ childrenOf (addChild d p c) p' ↔
      c' ∈ childrenOf d p' ∨ (p' = p ∧ c' = c) := by
  unfold childrenOf
  rw [findSeg_addChild]
  by_cases hpp : p' = p
  · rw [if_pos hpp]
    subst hpp
    show c' ∈ setAdd (childrenOf d p') c ↔ _
    rw [mem_setAdd]
    unfold childrenOf
    constructor
    · rintro (h | h)
      · exact Or.inl h
      · exact Or.inr ⟨rfl, h⟩
    · rintro (h | ⟨-, h⟩)
      · exact Or.inl h
      · exact Or.inr h
  · rw [if_neg hpp]
    constructor
    · exact fun h => Or.inl h
    · rintro (h | ⟨h1, -⟩)
      · exact h
      · exact absurd h1 hpp

lemma childrenOf_addPairs : ∀ (ns : List Name) (d : Segments) (p' c' : Name),
    c' ∈ childrenOf (addPairs d ns) p' ↔
      c' ∈ childrenOf d p' ∨ hasAdjPair p' c' ns = true
  | [], d, p', c' => by simp [addPairs, hasAdjPair]
  | [a], d, p', c' => by simp [addPairs, hasAdjPair]
  | a :: b :: rest, d, p', c' => by
    rw [show addPairs d (a :: b :: rest) = addPairs (addChild d a b) (b :: rest) from rfl]
    rw [childrenOf_addPairs (b :: rest) (addChild d a b) p' c']
    rw [childrenOf_addChild]
    simp only [hasAdjPair, Bool.or_eq_true, Bool.and_eq_true, decide_eq_true_eq]
    constructor
    · rintro ((h | ⟨h1, h2⟩) | h)
      · exact Or.inl h
      · exact Or.inr (Or.inl ⟨h1.symm, h2.symm⟩)
      · exact Or.inr (Or.inr h)
    · rintro (h | (⟨h1, h2⟩ | h))
      · exact Or.inl (Or.inl h)
      · exact Or.inl (Or.inr ⟨h1.symm, h2.symm⟩)
      · exact Or.inr h

lemma childrenOf_foldl (file : List (List Char)) (d : Segments) (p c : Name) :
    c ∈ childrenOf (file.foldl (fun d l => addPairs d (lineNodes l)) d) p ↔
      c ∈ childrenOf d p ∨ ∃ l ∈ file, hasAdjPair p c (lineNodes l) = true := by
  induction file generalizing d with
  | nil => simp
  | cons l file ih =>
    rw [List.foldl_cons]
    show c ∈ childrenOf (file.foldl _ (addPairs d (lineNodes l))) p ↔ _
    rw [ih, childrenOf_addPairs]
    constructor
    · rintro ((h | h) | ⟨l', hl', h⟩)
      · exact Or.inl h
      · exact Or.inr ⟨l, List.mem_cons_self l file, h⟩
      · exact Or.inr ⟨l', List.mem_cons_of_mem l hl', h⟩
    · rintro (h | ⟨l', hl', h⟩)
      · exact Or.inl (Or.inl h)
      · rcases List.mem_cons.mp hl' with rfl | hl''
        · exact Or.inl (Or.inr h)
        · exact Or.inr ⟨l', hl'', h⟩

lemma addPairs_short (d : Segments) (ns : List Name) (h : ns.length ≤ 1) :
    addPairs d ns = d := by
  match ns with
  | [] => rfl
  | [a] => rfl
  | a :: b :: rest => simp at h

lemma dropLast_append_ne {α : Type} (l1 l2 : List α) (h : l2 ≠ []) :
    (l1 ++ l2).dropLast = l1 ++ l2.dropLast := by
  rw [List.dropLast_append]
  simp [List.isEmpty_iff, h]

lemma splitOnSepGo_not_sep (acc : List Char) (c : Char) (rest : List Char)
    (h : ∀ r : List Char, c = ' ' → rest = '>' :: ' ' :: r → False) :
    splitOnSepGo acc (c :: rest) = splitOnSepGo (c :: acc) rest :=
  splitOnSepGo.eq_2 acc c rest h

lemma splitGo_no_sep (m : List Char) (hm : ('>' : Char) ∉ m) :
    ∀ acc, splitOnSepGo acc m = [acc.reverse ++ m] := by
  induction m with
  | nil =>
    intro acc
    simp [splitOnSepGo]
  | cons c m ih =>
    intro acc
    have hnotsep : ∀ r : List Char, c = ' ' → m = '>' :: ' ' :: r → False := by
      intro r _ hr
      exact hm (by rw [hr]; exact List.mem_cons_of_mem c (List.mem_cons_self _ _))
    rw [splitOnSepGo_not_sep acc c m hnotsep,
      ih (fun hmem => hm (List.mem_cons_of_mem c hmem)) (c :: acc)]
    simp

lemma splitGo_sep (m : List Char) (hm : ('>' : Char) ∉ m) :
    ∀ acc rest, splitOnSepGo acc (m ++ sepTok ++ rest)
      = (acc.reverse ++ m) :: splitOnSepGo [] rest := by
  induction m with
  | nil =>
    intro acc rest
    rw [show ([] : List Char) ++ sepTok ++ rest = ' ' :: '>' :: ' ' :: rest from rfl]
    rw [show splitOnSepGo acc (' ' :: '>' :: ' ' :: rest)
      = acc.reverse :: splitOnSepGo [] rest from rfl]
    simp
  | cons c m ih =>
    intro acc rest
    have hshape : ∀ r : List Char, c = ' ' → m ++ sepTok ++ rest = '>' :: ' ' :: r → False := by
      intro r _ hr
      cases m with
      | nil => simp [sepTok] at hr
      | cons d m' =>
        have hd : d = '>' := by
          have := congrArg (fun l => l.headI) hr
          simpa using this
        exact hm (by rw [hd]; exact List.mem_cons_of_mem c (List.mem_cons_self _ _))
    rw [show (c :: m) ++ sepTok ++ rest = c :: (m ++ sepTok ++ rest) by simp]
    rw [splitOnSepGo_not_sep acc c _ hshape]
    rw [ih (fun hmem => hm (List.mem_cons_of_mem c hmem)) (c :: acc) rest]
    simp

lemma splitOnSep_joinSep : ∀ ms : List (List Char), ms ≠ [] →
    (∀ m ∈ ms, ('>' : Char) ∉ m) → splitOnSep (joinSep sepTok ms) = ms
  | [], h, _ => absurd rfl h
  | [a], _, hm => by
    show splitOnSepGo [] a = [a]
    rw [splitGo_no_sep a (hm a (List.mem_cons_self _ _)) []]
    simp
  | a :: b :: l, _, hm => by
    show splitOnSepGo [] (a ++ sepTok ++ joinSep sepTok (b :: l)) = a :: b :: l
    rw [splitGo_sep a (hm a (List.mem_cons_self _ _)) [] (joinSep sepTok (b :: l))]
    have hrec := splitOnSep_joinSep (b :: l) (by simp)
      (fun m hmem => hm m (List.mem_cons_of_mem a hmem))
    show ([].reverse ++ a) :: splitOnSepGo [] (joinSep sepTok (b :: l)) = a :: b :: l
    rw [show splitOnSepGo [] (joinSep sepTok (b :: l)) = splitOnSep (joinSep sepTok (b :: l))
      from rfl, hrec]
    simp

lemma joinSep_ne_nil : ∀ (ns : List (List Char)) (lastN : List Char), lastN ≠ [] →
    joinSep sepTok (ns ++ [lastN]) ≠ []
  | [], _, h => by
    simp only [List.nil_append, joinSep]
    exact h
  | [a], lastN, _ => by
    simp only [List.cons_append, List.nil_append, joinSep]
    simp [sepTok]
  | a :: b :: ns, lastN, _ => by
    simp only [List.cons_append, joinSep]
    simp [sepTok]

lemma dropLast_joinSep : ∀ (ns : List (List Char)) (lastN : List Char), lastN ≠ [] →
    (joinSep sepTok (ns ++ [lastN])).dropLast = joinSep sepTok (ns ++ [lastN.dropLast])
  | [], _, _ => by simp only [List.nil_append, joinSep]
  | [a], lastN, h => by
    simp only [List.cons_append, List.nil_append, joinSep]
    rw [List.append_assoc, List.append_assoc,
      dropLast_append_ne _ _ (by simp [sepTok] : sepTok ++ lastN ≠ []),
      dropLast_append_ne _ _ h]
  | a :: b :: ns, lastN, h => by
    simp only [List.cons_append, joinSep, List.append_eq]
    have hrec := dropLast_joinSep (b :: ns) lastN h
    simp only [List.cons_append] at hrec
    have hne := joinSep_ne_nil (b :: ns) lastN h
    simp only [List.cons_append] at hne
    rw [List.append_assoc, List.append_assoc,
      dropLast_append_ne _ _ (by simp [sepTok] : sepTok ++ joinSep sepTok (b :: (ns ++ [lastN])) ≠ []),
      dropLast_append_ne _ _ hne, hrec]

lemma map_joinSep (f : Char → Char) : ∀ ms : List (List Char),
    (joinSep sepTok ms).map f = joinSep (sepTok.map f) (ms.map (List.map f))
  | [] => rfl
  | [a] => rfl
  | a :: b :: l => by
    simp only [List.map_cons, joinSep, List.map_append]
    rw [map_joinSep f (b :: l)]
    simp only [List.map_cons]

lemma encodePair_ok (d : Segments) (listOf : Name → List Name) (a b : Name)
    (s : List Name) (hs : findSeg d a = some s) (hm : b ∈ listOf a) :
    encodePair d listOf a b
      = .ok ((List.replicate (listOf a).length 0).set (pyListIndex b (listOf a)) 1) := by
  simp [encodePair, hs, hm, pySetItem, pyListIndex_lt_length b (listOf a) hm]

/-! Claim theorems. -/

/-- C1: for a pair (P, c) on a sample's path, with c present in the runtime
enumeration of P's recorded children (any enumeration of the parsed child
set), the hierarchical one-hot has length equal to the number of recorded
children of P and exactly one entry 1, located at the position of c in
that enumeration, with all other entries 0. -/
theorem c1_hier_onehot (d : Segments) (listOf : Name → List Name) (p c : Name)
    (s : List Name) (hfind : findSeg d p = some s) (hperm : (listOf p).Perm s)
    (hmem : c ∈ listOf p) :
    ∃ v, encodePair d listOf p c = .ok v ∧ v.length = s.length ∧
      v.count 1 = 1 ∧ v.getD (pyListIndex c (listOf p)) 0 = 1 ∧
      (∀ j, j < v.length → j ≠ pyListIndex c (listOf p) → v.getD j 0 = 0) := by
  have hidx : pyListIndex c (listOf p) < (listOf p).length :=
    pyListIndex_lt_length c (listOf p) hmem
  refine ⟨(List.replicate (listOf p).length 0).set (pyListIndex c (listOf p)) 1,
    ?_, ?_, ?_, ?_, ?_⟩
  · simp [encodePair, hfind, hmem, pySetItem, hidx]
  · rw [oneHot_length]
    exact hperm.length_eq
  · exact count_one_set_replicate _ _ hidx
  · rw [oneHot_getD _ _ _ hidx hidx]
    simp
  · intro j hj hne
    rw [oneHot_length] at hj
    rw [oneHot_getD _ _ _ hidx hj, if_neg hne]

/-- C1 witness: parent a with recorded children {b, c}, enumerated here as
[c, b]; the one-hot for (a, c) is [1, 0]. -/
theorem c1_hier_onehot_witness :
    ∃ v, encodePair [(['a'], [['b'], ['c']])] (fun _ => [['c'], ['b']]) ['a'] ['c']
        = .ok v ∧
      v.length = ([['b'], ['c']] : List Name).length ∧ v.count 1 = 1 ∧
      v.getD (pyListIndex ['c'] [['c'], ['b']]) 0 = 1 ∧
      (∀ j, j < v.length → j ≠ pyListIndex ['c'] [['c'], ['b']] →
        v.getD j 0 = 0) :=
  c1_hier_onehot [(['a'], [['b'], ['c']])] (fun _ => [['c'], ['b']]) ['a'] ['c']
    [['b'], ['c']] (by decide) (by decide) (by decide)

/-- C3: for every collection of N examples the splitter produces sizes
train+valid = round(0.8 N), test = N - round(0.8 N),
train = round(0.9 (train+valid)), valid = (train+valid) - train, where
round is Python round (half to even) on the exact value. -/
theorem c3_split_sizes (n : Nat) (perm1 perm2 : List Nat)
    (h1 : perm1.Perm (List.range n))
    (h2 : perm2.Perm (List.range (trainValidSize n))) :
    ((dataSplitting n perm1 perm2).1.length + (dataSplitting n perm1 perm2).2.1.length
      = (pyRound ((n : ℚ) * (8 / 10 : ℚ))).toNat) ∧
    ((dataSplitting n perm1 perm2).2.2.length
      = n - (pyRound ((n : ℚ) * (8 / 10 : ℚ))).toNat) ∧
    ((dataSplitting n perm1 perm2).1.length
      = (pyRound (((pyRound ((n : ℚ) * (8 / 10 : ℚ))).toNat : ℚ) * (9 / 10 : ℚ))).toNat) ∧
    ((dataSplitting n perm1 perm2).2.1.length
      = (pyRound ((n : ℚ) * (8 / 10 : ℚ))).toNat
        - (pyRound (((pyRound ((n : ℚ) * (8 / 10 : ℚ))).toNat : ℚ) * (9 / 10 : ℚ))).toNat) := by
  obtain ⟨ha, hb, hc⟩ := dataSplitting_lengths n perm1 perm2 h1 h2
  rw [pyRound_mul_eight_tenths, pyRound_mul_nine_tenths]
  have htr := trainSize_le (trainValidSize n)
  refine ⟨?_, ?_, ?_, ?_⟩ <;> omega

/-- C3 witness: for N = 100 (with concrete identity draws) the sizes are
train = 72, valid = 8, test = 20. -/
theorem c3_split_sizes_witness :
    ((dataSplitting 100 (List.range 100) (List.range 80)).1.length = 72) ∧
    ((dataSplitting 100 (List.range 100) (List.range 80)).2.1.length = 8) ∧
    ((dataSplitting 100 (List.range 100) (List.range 80)).2.2.length = 20) := by
  have k1 : trainValidSize 100 = 80 := by decide
  obtain ⟨ha, hb, hc, hd⟩ := c3_split_sizes 100 (List.range 100)
    (List.range 80) (List.Perm.refl _) (by rw [k1])
  rw [pyRound_mul_eight_tenths] at ha hb hc hd
  rw [pyRound_mul_nine_tenths] at hc hd
  rw [k1] at ha hb hc hd
  have k2 : trainSize 80 = 72 := by decide
  rw [k2] at hc hd
  exact ⟨hc, by omega, by omega⟩

/-- C4: the three partitions of a split collection of size N have sizes
summing to N, are pairwise disjoint as index sets over the original
collection, and their union recovers the original multiset. -/
theorem c4_split_partition {α : Type} (n : Nat) (perm1 perm2 : List Nat)
    (h1 : perm1.Perm (List.range n))
    (h2 : perm2.Perm (List.range (trainValidSize n))) :
    ((dataSplitting n perm1 perm2).1.length + (dataSplitting n perm1 perm2).2.1.length
      + (dataSplitting n perm1 perm2).2.2.length = n) ∧
    (dataSplitting n perm1 perm2).1.Disjoint (dataSplitting n perm1 perm2).2.1 ∧
    (dataSplitting n perm1 perm2).1.Disjoint (dataSplitting n perm1 perm2).2.2 ∧
    (dataSplitting n perm1 perm2).2.1.Disjoint (dataSplitting n perm1 perm2).2.2 ∧
    (∀ (xs : List α) (d : α), xs.length = n →
      (((dataSplitting n perm1 perm2).1 ++ (dataSplitting n perm1 perm2).2.1
        ++ (dataSplitting n perm1 perm2).2.2).map (fun i => xs.getD i d)).Perm xs) := by
  have hbig := dataSplitting_perm n perm1 perm2 h1 h2
  have hsum : ((dataSplitting n perm1 perm2).1 ++ (dataSplitting n perm1 perm2).2.1
      ++ (dataSplitting n perm1 perm2).2.2).length = n := by
    rw [hbig.length_eq, List.length_range]
  have hnd : ((dataSplitting n perm1 perm2).1 ++ (dataSplitting n perm1 perm2).2.1
      ++ (dataSplitting n perm1 perm2).2.2).Nodup :=
    hbig.symm.nodup (List.nodup_range n)
  rw [List.nodup_append, List.nodup_append, List.disjoint_append_left] at hnd
  refine ⟨?_, hnd.1.2.2, hnd.2.2.1, hnd.2.2.2, ?_⟩
  · rw [List.length_append, List.length_append] at hsum
    exact hsum
  · intro xs d hxs
    have hmr := map_getD_range xs d
    rw [hxs] at hmr
    refine (hbig.map _).trans ?_
    rw [hmr]

/-- C4 witness: concrete split of a collection of size 10. -/
theorem c4_split_partition_witness :
    ((dataSplitting 10 (List.range 10) (List.range (trainValidSize 10))).1.length
      + (dataSplitting 10 (List.range 10) (List.range (trainValidSize 10))).2.1.length
      + (dataSplitting 10 (List.range 10) (List.range (trainValidSize 10))).2.2.length = 10) ∧
    ((((dataSplitting 10 (List.range 10) (List.range (trainValidSize 10))).1
      ++ (dataSplitting 10 (List.range 10) (List.range (trainValidSize 10))).2.1
      ++ (dataSplitting 10 (List.range 10) (List.range (trainValidSize 10))).2.2).map
        (fun i => (List.range 10).getD i 0)).Perm (List.range 10)) := by
  obtain ⟨ha, _, _, _, hrec⟩ := c4_split_partition (α := Nat) 10 (List.range 10)
    (List.range (trainValidSize 10)) (List.Perm.refl _) (List.Perm.refl _)
  exact ⟨ha, hrec (List.range 10) 0 (List.length_range 10)⟩

/-- C5: whenever the three flat cache artifacts are present, the
preprocessing entry point returns the three loaded artifacts and the build
branch does not run; the result is the same for every build function
(hence for every state of the input table and hierarchy file), and the
branch reads only the presence of the three flat paths, so the
hierarchical artifact is never checked. -/
theorem c5_cache_hit {α : Type} (ex : String → Bool) (load : String → α)
    (build : Unit → α × α × α)
    (h1 : ex "datasets/train_set.pt" = true)
    (h2 : ex "datasets/valid_set.pt" = true)
    (h3 : ex "datasets/test_set.pt" = true) :
    (preprocessorRun ex load build
      = ((load "datasets/train_set.pt", load "datasets/valid_set.pt",
          load "datasets/test_set.pt"), false)) ∧
    (∀ build' : Unit → α × α × α,
      preprocessorRun ex load build' = preprocessorRun ex load build) ∧
    (∀ ex' : String → Bool,
      ex' "datasets/train_set.pt" = ex "datasets/train_set.pt" →
      ex' "datasets/valid_set.pt" = ex "datasets/valid_set.pt" →
      ex' "datasets/test_set.pt" = ex "datasets/test_set.pt" →
      preprocessorRun ex' load build = preprocessorRun ex load build) := by
  refine ⟨?_, ?_, ?_⟩
  · simp [preprocessorRun, h1, h2, h3]
  · intro build'
    simp [preprocessorRun, h1, h2, h3]
  · intro ex' e1 e2 e3
    simp only [preprocessorRun, e1, e2, e3]

/-- C5 witness: a concrete cache-hit state with two distinct build
functions yielding the same returned value. -/
theorem c5_cache_hit_witness :
    (preprocessorRun (fun _ => true) (fun _ => (0 : Nat)) (fun _ => (1, 2, 3))
      = ((0, 0, 0), false)) ∧
    (preprocessorRun (fun _ => true) (fun _ => (0 : Nat)) (fun _ => (7, 8, 9))
      = preprocessorRun (fun _ => true) (fun _ => (0 : Nat)) (fun _ => (1, 2, 3))) := by
  obtain ⟨ha, hb, _⟩ := c5_cache_hit (fun _ => true) (fun _ => (0 : Nat))
    (fun _ => (1, 2, 3)) rfl rfl rfl
  exact ⟨ha, hb _⟩

/-- C8: the flat target of a sample is a vector of length num_classes with
exactly one entry 1 at the sample's leaf index (the position of its leaf
label in the first-seen ordering of distinct leaves of the input table)
and 0 elsewhere, provided the class count covers the distinct leaves. -/
theorem c8_flat_onehot (numClasses : Nat) (rows : List Row) (r : Row)
    (hr : r ∈ rows) (hle : (labelsIdx rows).length ≤ numClasses) :
    ∃ v, flatTarget numClasses (labelsIdx rows) r = .ok v ∧
      v.length = numClasses ∧ v.count 1 = 1 ∧
      v.getD (pyListIndex r.leaf (labelsIdx rows)) 0 = 1 ∧
      (∀ j, j < numClasses → j ≠ pyListIndex r.leaf (labelsIdx rows) →
        v.getD j 0 = 0) := by
  have hmem := leaf_mem_labelsIdx rows r hr
  have hidx : pyListIndex r.leaf (labelsIdx rows) < numClasses :=
    lt_of_lt_of_le (pyListIndex_lt_length _ _ hmem) hle
  refine ⟨(List.replicate numClasses 0).set (pyListIndex r.leaf (labelsIdx rows)) 1,
    ?_, ?_, ?_, ?_, ?_⟩
  · simp [flatTarget, pySetItem, hidx]
  · exact oneHot_length _ _
  · exact count_one_set_replicate _ _ hidx
  · rw [oneHot_getD _ _ _ hidx hidx]
    simp
  · intro j hj hne
    rw [oneHot_getD _ _ _ hidx hj, if_neg hne]

/-- C8 witness: three rows with distinct leaves a, b, c; the row with leaf
c has leaf index 2 and, with num_classes 5, flat one-hot [0,0,1,0,0]. -/
theorem c8_flat_onehot_witness :
    (∃ v, flatTarget 5
        (labelsIdx [⟨0, 0, ['a'], []⟩, ⟨1, 0, ['b'], []⟩, ⟨2, 0, ['c'], []⟩])
        ⟨2, 0, ['c'], []⟩ = .ok v ∧
      v.length = 5 ∧ v.count 1 = 1 ∧
      v.getD (pyListIndex (Row.mk 2 0 ['c'] []).leaf
        (labelsIdx [⟨0, 0, ['a'], []⟩, ⟨1, 0, ['b'], []⟩, ⟨2, 0, ['c'], []⟩])) 0 = 1 ∧
      (∀ j, j < 5 → j ≠ pyListIndex (Row.mk 2 0 ['c'] []).leaf
        (labelsIdx [⟨0, 0, ['a'], []⟩, ⟨1, 0, ['b'], []⟩, ⟨2, 0, ['c'], []⟩]) →
        v.getD j 0 = 0)) ∧
    flatTarget 5
        (labelsIdx [⟨0, 0, ['a'], []⟩, ⟨1, 0, ['b'], []⟩, ⟨2, 0, ['c'], []⟩])
        ⟨2, 0, ['c'], []⟩ = .ok [0, 0, 1, 0, 0] :=
  ⟨c8_flat_onehot 5 [⟨0, 0, ['a'], []⟩, ⟨1, 0, ['b'], []⟩, ⟨2, 0, ['c'], []⟩]
    ⟨2, 0, ['c'], []⟩ (by decide) (by decide), rfl⟩

/-- C2 counterexample: the hierarchy file with lines a > b and a > c
records for parent a the child set containing b and c. Because the code
stores children in a Python set, list(set) is any enumeration of that set:
both [b, c] and [c, b] are enumerations of the recorded set (permutations
of its content), yet they place the 1 for the pair (a, c) at different
positions ([0, 1] versus [1, 0]). So the child index is not determined by
the first-encounter order of the file, refuting the claim that parsing
returns an ordered collection whose order fixes the index. -/
theorem c2_counterexample :
    ([['b'], ['c']] : List Name).Perm
        (childrenOf (generateHierarchySegment fileBC) ['a']) ∧
    ([['c'], ['b']] : List Name).Perm
        (childrenOf (generateHierarchySegment fileBC) ['a']) ∧
    encodePair (generateHierarchySegment fileBC) (fun _ => [['b'], ['c']])
        ['a'] ['c'] = .ok [0, 1] ∧
    encodePair (generateHierarchySegment fileBC) (fun _ => [['c'], ['b']])
        ['a'] ['c'] = .ok [1, 0] :=
  ⟨by decide, by decide, rfl, rfl⟩

/-- C2 amended: hierarchy parsing returns, per parent, an unordered set of
children whose membership is exactly the set of adjacent (parent, child)
pairs occurring in the file's lines; the one-hot position depends on the
runtime enumeration of that set, which the file does not determine. -/
theorem c2_amended_children_membership (file : List (List Char)) (p c : Name) :
    c ∈ childrenOf (generateHierarchySegment file) p ↔
      ∃ l ∈ file, hasAdjPair p c (lineNodes l) = true := by
  unfold generateHierarchySegment
  rw [childrenOf_foldl]
  constructor
  · rintro (h | h)
    · simp [childrenOf, findSeg] at h
    · exact h
  · exact Or.inr

/-- C7 counterexample: a hierarchy file containing an empty line and a
one-node line parses successfully to the same partial map as the file
without them; no error of any kind is raised, refuting the claim that such
lines make parsing fail. -/
theorem c7_counterexample :
    generateHierarchySegment [['\n'], ['q', '\n'], ['a', ' ', '>', ' ', 'b', '\n']]
      = generateHierarchySegment [['a', ' ', '>', ' ', 'b', '\n']] ∧
    generateHierarchySegment [['\n'], ['q', '\n'], ['a', ' ', '>', ' ', 'b', '\n']]
      = [(['a'], [['b']])] ∧
    (lineNodes ['\n']).length < 2 ∧ (lineNodes ['q', '\n']).length < 2 :=
  ⟨rfl, rfl, by decide, by decide⟩

/-- C7 amended: hierarchy parsing never fails; a line with fewer than two
nodes after the split (including a line that is empty after dropping its
final character) records nothing, so the parse of any file equals the
parse of the file with all such lines removed. -/
theorem c7_amended_short_lines_skipped (file : List (List Char)) :
    generateHierarchySegment file
      = generateHierarchySegment
          (file.filter (fun l => decide (2 ≤ (lineNodes l).length))) := by
  unfold generateHierarchySegment
  suffices h : ∀ d : Segments,
      file.foldl (fun d l => addPairs d (lineNodes l)) d
        = (file.filter (fun l => decide (2 ≤ (lineNodes l).length))).foldl
            (fun d l => addPairs d (lineNodes l)) d from h []
  induction file with
  | nil => intro d; rfl
  | cons l file ih =>
    intro d
    by_cases hl : 2 ≤ (lineNodes l).length
    · rw [List.filter_cons_of_pos (by simpa using hl), List.foldl_cons, List.foldl_cons]
      exact ih _
    · rw [List.filter_cons_of_neg (by simpa using hl), List.foldl_cons,
        addPairs_short d _ (by omega)]
      exact ih d

/-- C6 counterexample: with hierarchy lines x > z and w > z, a path pair
(x, y) fails because y is not recorded under x - but the raised error is
the bare ValueError of list.index carrying only the missing child name:
two distinct samples (token ids 1 and 2) produce the identical error, and
so does the different pair (w, y); the error therefore identifies neither
the sample nor the (parent, child) pair, refuting the claim that a
HierarchyMismatchError identifies both. -/
theorem c6_counterexample :
    processSample segXW (canonicalListing segXW) (initBuckets segXW) 1
        (pathNodes ['x', ' ', '>', ' ', 'y']) = .error (.valueError ['y']) ∧
    processSample segXW (canonicalListing segXW) (initBuckets segXW) 2
        (pathNodes ['x', ' ', '>', ' ', 'y']) = .error (.valueError ['y']) ∧
    processSample segXW (canonicalListing segXW) (initBuckets segXW) 1
        (pathNodes ['w', ' ', '>', ' ', 'y']) = .error (.valueError ['y']) ∧
    (1 : Nat) ≠ 2 ∧ (['x'] : Name) ≠ ['w'] :=
  ⟨rfl, rfl, rfl, by decide, by decide⟩

/-- C6 amended: whenever a sample's path contains a mismatching adjacent
pair, per-sample encoding aborts with the uncaught exception of the first
failing pair - a KeyError naming only the unrecorded parent or a
ValueError naming only the missing child - and no example is emitted. -/
theorem c6_amended_mismatch_aborts (d : Segments) (listOf : Name → List Name)
    (tok : Nat) :
    ∀ (ns : List Name) (bs : Buckets) (e : PyErr),
      firstFailure d listOf ns = some e →
      processSample d listOf bs tok ns = .error e
  | [], _, e => by intro h; simp [firstFailure] at h
  | [a], _, e => by intro h; simp [firstFailure] at h
  | a :: b :: rest, bs, e => by
    intro h
    cases hd : findSeg d a with
    | none =>
      rw [firstFailure] at h
      rw [hd] at h
      simp only [Option.some.injEq] at h
      subst h
      simp only [processSample, encodePair, hd]
      rfl
    | some s =>
      rw [firstFailure] at h
      rw [hd] at h
      by_cases hm : b ∈ listOf a
      · rw [if_pos hm] at h
        rw [show processSample d listOf bs tok (a :: b :: rest)
            = Except.bind (encodePair d listOf a b) (fun v =>
                processSample d listOf (appendBucket bs (parentPos d a) tok v) tok
                  (b :: rest)) from rfl]
        rw [encodePair_ok d listOf a b s hd hm]
        exact c6_amended_mismatch_aborts d listOf tok (b :: rest) _ e h
      · rw [if_neg hm] at h
        simp only [Option.some.injEq] at h
        subst h
        simp only [processSample, encodePair, hd, if_neg hm]
        rfl

/-- C6 amended witness: the mismatching pair (x, y) aborts a concrete
sample's encoding with the ValueError naming y. -/
theorem c6_amended_mismatch_aborts_witness :
    processSample segXW (canonicalListing segXW) (initBuckets segXW) 3
        (pathNodes ['x', ' ', '>', ' ', 'y']) = .error (.valueError ['y']) :=
  c6_amended_mismatch_aborts segXW (canonicalListing segXW) 3
    (pathNodes ['x', ' ', '>', ' ', 'y']) (initBuckets segXW)
    (.valueError ['y']) rfl

/-- C9: with hierarchy lines a > b and c > d and a single sample whose
path is a > b, the parent c is touched by no sample, its slot keeps the
empty-list placeholder, and the assembly loop subscripting it with the
string key input_ids raises TypeError: preprocessing does not complete,
contradicting the claim that an untouched parent is not an error. -/
theorem c9_untouched_parent_type_error :
    (processAll (generateHierarchySegment fileC9)
        (canonicalListing (generateHierarchySegment fileC9))
        [(1, pathNodes ['a', ' ', '>', ' ', 'b'])]
      = .ok [some ([1], [[1]]), none]) ∧
    (∀ (α : Type) (splitF : Bucket → α),
      hierPipeline fileC9 (canonicalListing (generateHierarchySegment fileC9))
          [(1, pathNodes ['a', ' ', '>', ' ', 'b'])] splitF
        = .error .typeError) :=
  ⟨rfl, fun _ _ => rfl⟩

/-- C10: hierarchy parsing drops the final character of every raw line
(path[:-1]) before lowercasing and splitting; hence for a file whose last
line has no trailing newline - a line assembled by joining already
lowercase node names (none containing the separator's character) whose
last name is nonempty and does not end in a newline - the recorded node
sequence of that line is the intended one with the last name truncated by
one character. -/
theorem c10_trailing_truncation (pre : List (List Char)) (ns : List Name)
    (lastN : Name) (hne : lastN ≠ [])
    (hnl : lastN.getLast hne ≠ '\n')
    (hlow : ∀ m ∈ ns ++ [lastN], m.map lowerChar = m)
    (hgt : ∀ m ∈ ns ++ [lastN], ('>' : Char) ∉ m) :
    generateHierarchySegment (pre ++ [joinSep sepTok (ns ++ [lastN])])
      = addPairs (generateHierarchySegment pre) (ns ++ [lastN.dropLast]) := by
  unfold generateHierarchySegment
  rw [List.foldl_append]
  simp only [List.foldl_cons, List.foldl_nil]
  congr 1
  unfold lineNodes
  rw [dropLast_joinSep ns lastN hne, map_joinSep lowerChar (ns ++ [lastN.dropLast])]
  rw [show sepTok.map lowerChar = sepTok from by decide]
  have hmapid : (ns ++ [lastN.dropLast]).map (List.map lowerChar)
      = ns ++ [lastN.dropLast] := by
    rw [List.map_append]
    congr 1
    · rw [List.map_congr_left
        (fun m hm => hlow m (List.mem_append_left _ hm) : ∀ m ∈ ns, List.map lowerChar m = id m)]
      exact List.map_id ns
    · have hl := hlow lastN (List.mem_append_right _ (List.mem_cons_self _ _))
      simp only [List.map_cons, List.map_nil]
      rw [List.map_dropLast, hl]
  rw [hmapid]
  refine splitOnSep_joinSep (ns ++ [lastN.dropLast]) (by simp) ?_
  intro m hm
  rcases List.mem_append.mp hm with h | h
  · exact hgt m (List.mem_append_left _ h)
  · have hm' : m = lastN.dropLast := by simpa using h
    subst hm'
    intro hc
    exact hgt lastN (List.mem_append_right _ (List.mem_cons_self _ _))
      (List.dropLast_subset lastN hc)

/-- C10 witness: the file whose only line is a > cd with no trailing
newline parses to a map recording c (the truncation of cd) as the child
of a. -/
theorem c10_trailing_truncation_witness :
    (generateHierarchySegment ([] ++ [joinSep sepTok ([['a']] ++ [['c', 'd']])])
      = addPairs (generateHierarchySegment []) ([['a']] ++ [(['c', 'd'] : Name).dropLast])) ∧
    generateHierarchySegment ([] ++ [joinSep sepTok ([['a']] ++ [['c', 'd']])])
      = [(['a'], [['c']])] :=
  ⟨c10_trailing_truncation [] [['a']] ['c', 'd'] (by decide) (by decide)
    (by decide) (by decide), rfl⟩

end MediumPrep
